import Mathlib

/-!
Verification of the `ode` hierarchical data library (src/src/ode.c).

The development shallowly embeds the C sources:
* byte buffers are `List Nat` (each element one byte);
* the tree type `struct ode_object` becomes the inductive `Ode.OTree`, with one
  constructor per discriminated state of the C struct (`value != NULL`,
  `sub != NULL`, neither) — `nsub` is the length of the child list;
* the `(size_t) -1` length sentinel of the public API becomes `Option Nat`
  (`none` = sentinel, `some k` = explicit length `k`);
* fallible C functions return `Option`;
* the recursive deserialiser takes an explicit fuel argument; the C recursion
  depth is bounded by the buffer size (each level consumes at least one byte),
  so fuel `size` is a sound bound and is what `ode_deserial` passes;
* the pointer-level mutators `ode_add` / `ode_del`, whose contracts concern
  reallocation, relocation and parent back-references, are additionally
  embedded over an explicit heap of child-array blocks in `OdeHeap`;
* an allocation-counting copy of the deserialiser lives in `OdeCnt`;
* the binary codec described by the specification has no code under `src/`
  and is modelled from the spec's words in `OdeBin`.

Byte constants: `"` = 34, `#` = 35, `:` = 58, `;` = 59, `|` = 124.
-/

namespace Ode

/-- `STR_SEP` of ode.c: the double quote `"`. -/
def STRSEP : Nat := 34

/-- `STR_SPEC` of ode.c: the hash `#`. -/
def STRSPEC : Nat := 35

/-- `FIELD_SEP` of ode.c: the colon `:`. -/
def FIELDSEP : Nat := 58

/-- `OBJ_SEP` of ode.c: the semicolon `;`. -/
def OBJSEP : Nat := 59

/-- `OBJ_SPEC` of ode.c: the pipe `|`. -/
def OBJSPEC : Nat := 124

/-- Length of the run of `STR_SPEC` (`#`) bytes at the head of the buffer. -/
def leadHashes : List Nat → Nat
  | [] => 0
  | c :: r => if c = 35 then leadHashes r + 1 else 0

/-- Length of the run of `OBJ_SPEC` (`|`) bytes at the head of the buffer. -/
def leadPipes : List Nat → Nat
  | [] => 0
  | c :: r => if c = 124 then leadPipes r + 1 else 0

/-- The opening-delimiter loop of `info_serial` (ode.c:105-110): consume the
leading `#` run up to the opening quote.  Returns the run length and the bytes
after the quote; `none` if a foreign byte or the end of the buffer is hit. -/
def specRun : List Nat → Option (Nat × List Nat)
  | [] => none
  | c :: rest =>
    if c = 34 then some (0, rest)
    else if c = 35 then
      match specRun rest with
      | some (s, r) => some (s + 1, r)
      | none => none
    else none

/-- The closing-scan loop of `info_serial` (ode.c:116-136): scan the bytes
after the opening quote for a quote followed by (at least) `specs` hashes.
Returns the index of the closing quote (= the content length) and the bytes
after the consumed fence.  Mirrors the C `goto cont` structure: a quote
followed by `h < specs` hashes and then a non-hash byte resumes the scan at
that byte; a quote whose short hash run reaches the end of the buffer fails. -/
def scanStr (specs : Nat) : List Nat → Option (Nat × List Nat)
  | [] => none
  | c :: rest =>
    if c = 34 then
      let h := leadHashes rest
      if specs ≤ h then some (0, rest.drop specs)
      else if rest.length ≤ h then none
      else
        match scanStr specs (rest.drop h) with
        | some (n, r) => some (n + h + 1, r)
        | none => none
    else
      match scanStr specs rest with
      | some (n, r) => some (n + 1, r)
      | none => none
termination_by l => l.length
decreasing_by
  · simp only [List.length_drop, List.length_cons]; omega
  · simp only [List.length_cons]; omega

/-- `info_serial` of ode.c:95-139: extract the content length and fence width
of the string starting the buffer.  The buffer stands for the bytes from
`serial` to `end` inclusive; the C bound checks `serial >= end` become length
checks on the remaining list. -/
def info_serial (l : List Nat) : Option (Nat × Nat) :=
  if l.length < 2 then none
  else
    match specRun l with
    | none => none
    | some (specs, rest) =>
      if rest.isEmpty then none
      else
        match scanStr specs rest with
        | some (n, _) => some (n, specs)
        | none => none

/-- `deserial_str` of ode.c:161-177: decode the string at the head of the
buffer, returning its content (`SERIAL_START` / `real_len` extraction) and the
buffer advanced by `AS_SERIAL_LEN = real_len + 2*specs + 2`.  The allocation
is assumed to succeed (allocation failure is studied separately). -/
def deserial_str (l : List Nat) : Option (List Nat × List Nat) :=
  match info_serial l with
  | none => none
  | some (rlen, specs) =>
    some ((l.drop (specs + 1)).take rlen, l.drop (rlen + 2 * specs + 2))

/-- `nspec` of ode.c:142-156: the fence width the encoder chooses for `s` —
the maximum, over the quotes the scan visits, of one plus the hash run
following the quote (0 if no quote is visited).  The C outer loop's `++str`
runs after the quote-handling body, whose inner loop already left `str` on
the first non-hash byte past the run, so that byte is skipped and a quote
sitting there is never counted: the scan resumes at `rest.drop (h + 1)`,
not `rest.drop h` (when the run reaches the end of the buffer both drops
yield the empty list, as in C). -/
def nspec : List Nat → Nat
  | [] => 0
  | c :: rest =>
    if c = 34 then
      let h := leadHashes rest
      max (1 + h) (nspec (rest.drop (h + 1)))
    else nspec rest
termination_by l => l.length
decreasing_by
  · simp only [List.length_drop, List.length_cons]; omega
  · simp only [List.length_cons]; omega

/-- `serial_str` of ode.c:181-196: fence, quote, content, quote, fence. -/
def serial_str (s : List Nat) : List Nat :=
  List.replicate (nspec s) 35 ++ 34 :: (s ++ 34 :: List.replicate (nspec s) 35)

/-- The tree type `struct ode_object` (ode.c:62-69).  One constructor per
discriminated state: `vnode` = value set (`value != NULL`), `snode` =
children set (`sub != NULL`, `nsub = cs.length`), `enode` = empty object.
`name_len` / `value_len` are the list lengths. -/
inductive OTree where
  | vnode (name : List Nat) (value : List Nat)
  | snode (name : List Nat) (cs : List OTree)
  | enode (name : List Nat)

/-- The name field of a node. -/
def oname : OTree → List Nat
  | .vnode n _ => n
  | .snode n _ => n
  | .enode n => n

/-- The children of a node (`sub` array, empty when `sub == NULL`). -/
def children : OTree → List OTree
  | .snode _ cs => cs
  | _ => []

mutual
/-- Well-formedness maintained by the Tree Engine operations: a node with a
child array has at least one child (`ode_add` creates the array with its first
element; `ode_del` frees it when the last child goes). -/
def wfb : OTree → Bool
  | .vnode _ _ => true
  | .enode _ => true
  | .snode _ cs => !cs.isEmpty && wfbL cs

/-- `wfb` on every element of a child list. -/
def wfbL : List OTree → Bool
  | [] => true
  | t :: ts => wfb t && wfbL ts
end

mutual
/-- `size_as_serial` of ode.c:199-218. -/
def size_as_serial : OTree → Nat
  | .vnode n v => (n.length + 2 * nspec n + 2) + (2 + (v.length + 2 * nspec v + 2))
  | .snode n cs => (n.length + 2 * nspec n + 2) + (cs.length + sizeL cs)
  | .enode n => (n.length + 2 * nspec n + 2) + 1

/-- Sum of `size_as_serial` over a child list (the `ITER_SUB` loop). -/
def sizeL : List OTree → Nat
  | [] => 0
  | t :: ts => size_as_serial t + sizeL ts
end

mutual
/-- `mkserial` of ode.c:274-293, producing the byte list written to `dest`. -/
def mkserial : OTree → List Nat
  | .vnode n v => serial_str n ++ 58 :: (serial_str v ++ [59])
  | .snode n cs => serial_str n ++ (List.replicate cs.length 124 ++ mkserialL cs)
  | .enode n => serial_str n ++ [59]

/-- Concatenated serialisations of a child list (the `ITER_SUB` loop). -/
def mkserialL : List OTree → List Nat
  | [] => []
  | t :: ts => mkserial t ++ mkserialL ts
end

mutual
/-- Height of a tree (0 for leaves); bounds the recursion depth of the
deserialiser. -/
def ht : OTree → Nat
  | .vnode _ _ => 0
  | .enode _ => 0
  | .snode _ cs => htL cs + 1

/-- Maximum height over a child list. -/
def htL : List OTree → Nat
  | [] => 0
  | t :: ts => max (ht t) (htL ts)
end

mutual
/-- `mkdeserial` of ode.c:222-271 with explicit fuel.  Parse a name string,
then dispatch on the next byte: `:` (58) value then `;` (59); a `|` (124) run
giving the child count, requiring at least two further bytes (`serial >= end`
check of ode.c:242), then that many children; `;` alone an empty node; any
other byte a format error.  Allocations are assumed to succeed. -/
def mkdeserialF : Nat → List Nat → Option (OTree × List Nat)
  | 0, _ => none
  | fuel + 1, l =>
    match deserial_str l with
    | none => none
    | some (nm, r) =>
      match r with
      | [] => none
      | c :: r2 =>
        if c = 58 then
          match deserial_str r2 with
          | none => none
          | some (v, r3) =>
            match r3 with
            | 59 :: r4 => some (.vnode nm v, r4)
            | _ => none
        else if c = 124 then
          let k := leadPipes r2
          let body := r2.drop k
          if body.length < 2 then none
          else
            match mkdeserialC fuel (k + 1) body with
            | none => none
            | some (cs, r3) => some (.snode nm cs, r3)
        else if c = 59 then some (.enode nm, r2)
        else none
termination_by fuel l => (fuel, 0)

/-- The recursive child loop of `mkdeserial` (ode.c:251-258): parse `k`
children in sequence. -/
def mkdeserialC : Nat → Nat → List Nat → Option (List OTree × List Nat)
  | _, 0, l => some ([], l)
  | fuel, k + 1, l =>
    match mkdeserialF fuel l with
    | none => none
    | some (t, r) =>
      match mkdeserialC fuel k r with
      | none => none
      | some (ts, r2) => some (t :: ts, r2)
termination_by fuel k l => (fuel, k + 1)
end

/-- `ode_serial` of ode.c:369-382: the produced buffer and the reported
`*serial_size`. -/
def ode_serial (t : OTree) : List Nat × Nat :=
  (mkserial t, size_as_serial t)

/-- `ode_deserial` of ode.c:352-367: parse a root object from the first
`size` bytes of the buffer (`end = serial + size - 1`).  Fuel `size` bounds
the C recursion depth (each level consumes at least one byte). -/
def ode_deserial (serial : List Nat) (size : Nat) : Option OTree :=
  (mkdeserialF size (serial.take size)).map Prod.fst

/-- `strlen` on the byte-list model: index of the first zero byte. -/
def cstrlen (s : List Nat) : Nat :=
  (s.takeWhile (fun c => c != 0)).length

/-- Resolution of the `(size_t) -1` length sentinel (`none`):
`if (len == (size_t) -1) len = strlen(str)`. -/
def resolveLen (s : List Nat) : Option Nat → Nat
  | none => cstrlen s
  | some k => k

/-- `eq_str` of ode.c:296-304: compare the NUL-terminated string `a` with the
`b_len`-byte string `b`.  `a.headD 0` reads the current byte of `a`; the `0`
default only triggers past `a`'s buffer, which C never reaches when `a`
contains its terminating NUL. -/
def eq_str : List Nat → List Nat → Bool
  | a, [] => a.headD 0 == 0
  | a, c :: b =>
    if a.headD 0 == 0 then false
    else if a.headD 0 != c then false
    else eq_str a.tail b

/-- `ode_create` of ode.c:334-350 (allocation assumed to succeed): a fresh
empty root carrying the first `len` bytes of `name`. -/
def ode_create (nm : List Nat) (len : Option Nat) : OTree :=
  .enode (nm.take (resolveLen nm len))

/-- `ode_get1` of ode.c:384-403: first direct child whose name matches.  With
the sentinel, `eq_str` compares against the NUL-terminated `nm`; with an
explicit length, `o->name_len == len && EQ_MEM(o->name, name, len)` (the
caller guarantees `nm` holds `len` bytes, hence the `take`). -/
def ode_get1 (src : OTree) (nm : List Nat) (len : Option Nat) : Option OTree :=
  match len with
  | none => (children src).find? (fun o => eq_str nm (oname o))
  | some k => (children src).find? (fun o => (oname o).length == k && oname o == nm.take k)

/-- `enum ode_type` of ode.h. -/
inductive OType where
  | tname
  | tvalue
deriving Repr, DecidableEq

/-- Replace the name of a node (`set_str` on the name field). -/
def setName : OTree → List Nat → OTree
  | .vnode _ v, n => .vnode n v
  | .snode _ cs, n => .snode n cs
  | .enode _, n => .enode n

/-- Replace the value of a node (`set_str` on the value field; only invoked
when the node has no children). -/
def setValue : OTree → List Nat → OTree
  | .vnode n _, v => .vnode n v
  | .enode n, v => .vnode n v
  | .snode n cs, _ => .snode n cs

/-- `ode_mod` of ode.c:461-478 (allocation assumed to succeed).  `sur` is the
`obj->sur` parent of the node, passed explicitly.  The C order is kept:
value-on-parent check, sentinel resolution, then the duplicate-name check via
`ode_get1` on the parent with the resolved length. -/
def ode_mod (sur : Option OTree) (obj : OTree) (ty : OType) (s : List Nat)
    (len : Option Nat) : Option OTree :=
  if ty == OType.tvalue && !(children obj).isEmpty then none
  else
    let k := resolveLen s len
    if ty == OType.tname && sur.isSome && (ode_get1 (sur.getD obj) s (some k)).isSome then none
    else if ty == OType.tname then some (setName obj (s.take k))
    else some (setValue obj (s.take k))

/-- `ode_add` of ode.c:480-517 (allocations assumed to succeed; the
allocation-failure paths are studied on the heap model).  Note the C calls
`ode_get1` with the *unresolved* length and resolves the sentinel only
afterwards.  Returns the updated parent. -/
def ode_add (par : OTree) (nm : List Nat) (len : Option Nat) : Option OTree :=
  match par with
  | .vnode _ _ => none
  | .snode n cs =>
    if (ode_get1 (.snode n cs) nm len).isSome then none
    else some (.snode n (cs ++ [.enode (nm.take (resolveLen nm len))]))
  | .enode n => some (.snode n [.enode (nm.take (resolveLen nm len))])

/-- The byte count passed to `ODE_REALLOC` when `ode_del` shrinks a child
array (ode.c:545).  C operator precedence parses
`sizeof(*sur->sub) * sur->nsub - 1` as `(sizeof(*sur->sub) * sur->nsub) - 1`;
`sz` stands for `sizeof(struct ode_object)` and `nsub` for the old child
count. -/
def shrink_request (sz nsub : Nat) : Nat := sz * nsub - 1

/-- Declarative closing-fence condition on the scan region after the opening
quote: position `j` holds a quote that is followed by at least `specs` hash
bytes. -/
def isClose (specs : Nat) (l : List Nat) (j : Nat) : Prop :=
  l[j]? = some 34 ∧ specs ≤ leadHashes (l.drop (j + 1))

instance (specs : Nat) (l : List Nat) (j : Nat) : Decidable (isClose specs l j) :=
  inferInstanceAs (Decidable (_ ∧ _))

end Ode

/-!
Allocation-accounting copy of the text decoder, for the decode-failure leak
claim.  Each function returns, besides the parse result, the number of
`ODE_MALLOC` calls made (string buffers and child arrays; allocations are
assumed to succeed, as the claim concerns invalid input) and the number of
`free` calls made, following exactly the C control flow of
`deserial_str` / `mkdeserial` / `ode_deserial` (ode.c:161-177, 222-271,
352-367). -/

namespace OdeCnt

open Ode

/-- `deserial_str` with its allocation count: one `ODE_MALLOC` when
`info_serial` accepts, none when it rejects. -/
def deserial_strA (l : List Nat) : Option (List Nat × List Nat) × Nat :=
  match Ode.deserial_str l with
  | none => (none, 0)
  | some p => (some p, 1)

mutual
/-- `mkdeserial` with allocation and free counts.  The fail paths mirror
ode.c: the label `fail` frees only `dest->name`; a child failure first frees
the child array (`free(dest->sub)`, ode.c:255); the `serial > end` return at
ode.c:228-229 and ode.c:235 frees nothing beyond what the C code frees. -/
def mkdeserialA : Nat → List Nat → Option (OTree × List Nat) × Nat × Nat
  | 0, _ => (none, 0, 0)
  | fuel + 1, l =>
    match deserial_strA l with
    | (none, a) => (none, a, 0)
    | (some (nm, r), a) =>
      match r with
      | [] => (none, a, 0)
      | c :: r2 =>
        if c = 58 then
          match deserial_strA r2 with
          | (none, a2) => (none, a + a2, 1)
          | (some (v, r3), a2) =>
            match r3 with
            | 59 :: r4 => (some (.vnode nm v, r4), a + a2, 0)
            | _ => (none, a + a2, 1)
        else if c = 124 then
          let k := leadPipes r2
          let body := r2.drop k
          if body.length < 2 then (none, a, 1)
          else
            match mkdeserialCA fuel (k + 1) body with
            | (none, a2, f2) => (none, a + 1 + a2, f2 + 2)
            | (some (cs, r3), a2, f2) => (some (.snode nm cs, r3), a + 1 + a2, f2)
        else if c = 59 then (some (.enode nm, r2), a, 0)
        else (none, a, 1)
termination_by fuel l => (fuel, 0)

/-- The child loop of `mkdeserial` with allocation and free counts. -/
def mkdeserialCA : Nat → Nat → List Nat → Option (List OTree × List Nat) × Nat × Nat
  | _, 0, l => (some ([], l), 0, 0)
  | fuel, k + 1, l =>
    match mkdeserialA fuel l with
    | (none, a, f) => (none, a, f)
    | (some (t, r), a, f) =>
      match mkdeserialCA fuel k r with
      | (none, a2, f2) => (none, a + a2, f + f2)
      | (some (ts, r2), a2, f2) => (some (t :: ts, r2), a + a2, f + f2)
termination_by fuel k l => (fuel, k + 1)
end

/-- `ode_deserial` with allocation and free counts: one `ODE_MALLOC` for the
root object, and `free(ret)` on failure (ode.c:356-364). -/
def ode_deserialA (l : List Nat) : Option OTree × Nat × Nat :=
  match mkdeserialA l.length l with
  | (none, a, f) => (none, a + 1, f + 1)
  | (some (t, _), a, f) => (some t, a + 1, f)

end OdeCnt

/-!
Heap-level model of the mutators whose contracts concern reallocation,
relocation and parent back-references.  A heap is an association list from
block ids to child arrays (a root object is a one-element block).  A node
address is `(block id, index)`; `sub` stores a block id, `sur` a node
address, mirroring the pointer fields of `struct ode_object`.  Name and
value buffers are carried inline (their own addresses play no role in the
claims).  Allocator behaviour is a parameter: `none` = the
allocation/reallocation fails; `some b` = it succeeds and returns block `b`
(equal to the old id when `realloc` did not move the block, different — and
fresh — when it did, the old block then being freed). -/

namespace OdeHeap

open Ode

/-- One `struct ode_object` record as laid out in a child-array block. -/
structure HNode where
  name : List Nat
  value : Option (List Nat)
  nsub : Nat
  sub : Option Nat
  sur : Option (Nat × Nat)
deriving Repr, DecidableEq

/-- A heap of child-array blocks. -/
abbrev Heap := List (Nat × List HNode)

/-- Look up a block. -/
def hget (h : Heap) (b : Nat) : Option (List HNode) :=
  (h.find? (fun p => p.1 == b)).map Prod.snd

/-- Store a block (replacing the binding if present). -/
def hset (h : Heap) (b : Nat) (arr : List HNode) : Heap :=
  if (h.find? (fun p => p.1 == b)).isSome then
    h.map (fun p => if p.1 == b then (b, arr) else p)
  else (b, arr) :: h

/-- Free a block. -/
def hfree (h : Heap) (b : Nat) : Heap :=
  h.filter (fun p => p.1 != b)

/-- Read the node at an address. -/
def readN (h : Heap) (a : Nat × Nat) : Option HNode :=
  (hget h a.1).bind (fun arr => arr.get? a.2)

/-- Overwrite the node at an address. -/
def writeN (h : Heap) (a : Nat × Nat) (n : HNode) : Heap :=
  match hget h a.1 with
  | none => h
  | some arr => hset h a.1 (arr.set a.2 n)

/-- `INIT(obj, parent)` of ode.c:48-58. -/
def initNode (parent : Nat × Nat) : HNode :=
  { name := [], value := none, nsub := 0, sub := none, sur := some parent }

/-- Point every node of an array at the given parent address (`p->sur = o`). -/
def setAllSur (arr : List HNode) (a : Nat × Nat) : List HNode :=
  arr.map (fun n => { n with sur := some a })

/-- `resur` of ode.c:322-332 applied to a parent whose child array is block
`b` with `nsub` children: for every child owning a sub block, rewrite the
`sur` of every node in that block to the child's address. -/
def resur (h : Heap) (b : Nat) (nsub : Nat) : Heap :=
  match hget h b with
  | none => h
  | some arr =>
    (List.range nsub).foldl (fun h2 i =>
      match (arr.get? i).bind (fun o => o.sub) with
      | none => h2
      | some cb =>
        match hget h2 cb with
        | none => h2
        | some carr => hset h2 cb (setAllSur carr (b, i))) h

/-- `destroy` of ode.c:307-319 on the heap (name and value buffers are
inline, so only sub blocks are released); fuel bounds the recursion depth. -/
def destroy : Nat → Heap → HNode → Heap
  | 0, h, _ => h
  | fuel + 1, h, n =>
    match n.value, n.sub with
    | some _, _ => h
    | none, none => h
    | none, some b =>
      match hget h b with
      | none => hfree h b
      | some arr => hfree ((arr.take n.nsub).foldl (fun h2 c => destroy fuel h2 c) h) b

/-- The duplicate-name check `ode_get1(to, name, len)` of ode.c:488 on the
heap, with the name given as its full byte list (explicit length). -/
def ode_get1h (h : Heap) (n : HNode) (nm : List Nat) : Bool :=
  match n.sub with
  | none => false
  | some b =>
    match hget h b with
    | none => false
    | some arr => ((arr.take n.nsub).find? (fun o => o.name == nm)).isSome

/-- `ode_add` of ode.c:480-517 on the heap.  `growRes` is the outcome of the
child-array `ODE_REALLOC`/`ODE_MALLOC` (ode.c:490/496), `nameOk` the outcome
of the allocation inside `set_str` (ode.c:504).  The C control flow is kept
exactly: on `set_str` failure with pre-existing siblings, the function
returns without touching `to->sub` (ode.c:505-510), although the realloc
already released the old block when it moved. -/
def ode_add (h : Heap) (toA : Nat × Nat) (nm : List Nat) (growRes : Option Nat)
    (nameOk : Bool) : Option (Nat × Nat) × Heap :=
  match readN h toA with
  | none => (none, h)
  | some toN =>
    if toN.value.isSome then (none, h)
    else
      match toN.sub with
      | some oldB =>
        if ode_get1h h toN nm then (none, h)
        else
          match growRes with
          | none => (none, h)
          | some newB =>
            match hget h oldB with
            | none => (none, h)
            | some oldArr =>
              let moved := newB != oldB
              let h1 := if moved then hset (hfree h oldB) newB (oldArr ++ [initNode toA])
                        else hset h oldB (oldArr ++ [initNode toA])
              if nameOk then
                let h2 := writeN h1 (newB, toN.nsub) { initNode toA with name := nm }
                let h3 := writeN h2 toA { toN with sub := some newB }
                let h4 := if moved then resur h3 newB toN.nsub else h3
                let h5 := writeN h4 toA { toN with sub := some newB, nsub := toN.nsub + 1 }
                (some (newB, toN.nsub), h5)
              else
                (none, h1)
      | none =>
        match growRes with
        | none => (none, h)
        | some newB =>
          let h1 := hset h newB [initNode toA]
          if nameOk then
            let h2 := writeN h1 (newB, 0) { initNode toA with name := nm }
            let h3 := writeN h2 toA { toN with sub := some newB, nsub := 1 }
            (some (newB, 0), h3)
          else
            (none, writeN (hfree h1 newB) toA { toN with sub := none })

/-- `ode_del` of ode.c:519-565 on the heap.  `shrinkRes` is the outcome of
the shrinking `ODE_REALLOC` (ode.c:545); the realloc is modelled at element
granularity, keeping the first `nsub - 1` records (the byte count the C code
requests is studied separately as `Ode.shrink_request`).  The C control flow
is kept exactly: `resur` runs only when the realloc returned a different
base (`moved`, ode.c:553/563). -/
def ode_del (fuel : Nat) (h : Heap) (a : Nat × Nat) (shrinkRes : Option Nat) :
    Bool × Heap :=
  match readN h a with
  | none => (false, h)
  | some obj =>
    match obj.sur with
    | none => (true, hfree (destroy fuel h obj) a.1)
    | some surA =>
      match readN h surA with
      | none => (false, h)
      | some surN =>
        match surN.sub with
        | none => (false, h)
        | some oldB =>
          if 1 < surN.nsub then
            let lastA : Nat × Nat := (oldB, surN.nsub - 1)
            let h1 := if a != lastA then
                        match readN h lastA with
                        | some lastN => writeN h a lastN
                        | none => h
                      else h
            match shrinkRes with
            | none => (false, if a != lastA then writeN h1 a obj else h1)
            | some newB =>
              match hget h1 oldB with
              | none => (false, h1)
              | some arr =>
                let moved := newB != oldB
                let h2 := if moved then hset (hfree h1 oldB) newB (arr.take (surN.nsub - 1))
                          else hset h1 oldB (arr.take (surN.nsub - 1))
                let h3 := destroy fuel h2 obj
                let h4 := writeN h3 surA { surN with sub := some newB, nsub := surN.nsub - 1 }
                let h5 := if moved then resur h4 newB (surN.nsub - 1) else h4
                (true, h5)
          else
            let h1 := hfree (destroy fuel h obj) oldB
            let h2 := writeN h1 surA { surN with sub := none, nsub := surN.nsub - 1 }
            (true, h2)

mutual
/-- Read back the observable tree rooted at an address: every name, value,
child count and sibling order, following `sub` pointers; `none` when a
pointer dangles. -/
def readTree : Nat → Heap → Nat × Nat → Option OTree
  | 0, _, _ => none
  | fuel + 1, h, a =>
    match readN h a with
    | none => none
    | some n =>
      match n.value with
      | some v => some (.vnode n.name v)
      | none =>
        match n.sub with
        | none => some (.enode n.name)
        | some b =>
          match readKids fuel h b 0 n.nsub with
          | none => none
          | some cs => some (.snode n.name cs)
termination_by fuel h a => (fuel, 0)

/-- Read back the children at indices `i, i+1, …, i+k-1` of block `b`. -/
def readKids : Nat → Heap → Nat → Nat → Nat → Option (List OTree)
  | _, _, _, _, 0 => some []
  | fuel, h, b, i, k + 1 =>
    match readTree fuel h (b, i) with
    | none => none
    | some t =>
      match readKids fuel h b (i + 1) k with
      | none => none
      | some ts => some (t :: ts)
termination_by fuel h b i k => (fuel, k + 1)
end

end OdeHeap

/-!
Binary codec.  The specification (section 4.3) describes a binary codec —
magic byte, native-width length-prefixed name, tag byte `VALUE(0)` /
`CHILDREN(1)` / `NONE(2)`, length-prefixed payload or counted children —
but no such code exists under `src/`; the definitions below are modelled
from the spec's words.  The native integer width is the parameter `w`
(bytes, little-endian by modelling choice; the spec only fixes that encode
and decode agree on the width). -/

namespace OdeBin

open Ode

/-- Modelled from the spec: the single fixed magic byte identifying the
binary format (its concrete value is not fixed by the spec). -/
def MAGIC : Nat := 66

/-- Modelled from the spec: a native-width (`w`-byte) integer field. -/
def toLE : Nat → Nat → List Nat
  | 0, _ => []
  | w + 1, n => n % 256 :: toLE w (n / 256)

/-- Modelled from the spec: read back a native-width integer field. -/
def fromLE : List Nat → Nat
  | [] => 0
  | b :: r => b + 256 * fromLE r

/-- Modelled from the spec: consume a `w`-byte length field, validating that
it does not exceed the remaining buffer. -/
def readLen (w : Nat) (l : List Nat) : Option (Nat × List Nat) :=
  if w ≤ l.length then some (fromLE (l.take w), l.drop w) else none

/-- Modelled from the spec: consume `n` raw bytes, validating the declared
length against the remaining buffer size. -/
def readBytes (n : Nat) (l : List Nat) : Option (List Nat × List Nat) :=
  if n ≤ l.length then some (l.take n, l.drop n) else none

mutual
/-- Modelled from the spec: binary serialisation of one node —
length-prefixed name, then tag `0` with a length-prefixed payload, tag `1`
with a child count and the children in sequence, or tag `2` alone. -/
def encNode (w : Nat) : OTree → List Nat
  | .vnode n v => toLE w n.length ++ n ++ 0 :: (toLE w v.length ++ v)
  | .snode n cs => toLE w n.length ++ n ++ 1 :: (toLE w cs.length ++ encList w cs)
  | .enode n => toLE w n.length ++ n ++ [2]

/-- Modelled from the spec: each child's serialised form in sequence. -/
def encList (w : Nat) : List OTree → List Nat
  | [] => []
  | t :: ts => encNode w t ++ encList w ts
end

/-- Modelled from the spec: the full binary buffer — one magic byte then the
root node's serialised form. -/
def binEncode (w : Nat) (t : OTree) : List Nat := MAGIC :: encNode w t

mutual
/-- Modelled from the spec: the binary decoder, validating at every step
that declared lengths fit the remaining buffer and rejecting unknown tag
bytes; fuel bounds the recursion depth. -/
def decNode : Nat → Nat → List Nat → Option (OTree × List Nat)
  | 0, _, _ => none
  | fuel + 1, w, l =>
    match readLen w l with
    | none => none
    | some (nl, r) =>
      match readBytes nl r with
      | none => none
      | some (nm, r2) =>
        match r2 with
        | 0 :: r3 =>
          match readLen w r3 with
          | none => none
          | some (vl, r4) =>
            match readBytes vl r4 with
            | none => none
            | some (v, r5) => some (.vnode nm v, r5)
        | 1 :: r3 =>
          match readLen w r3 with
          | none => none
          | some (cnt, r4) =>
            match decKids fuel w cnt r4 with
            | none => none
            | some (cs, r5) => some (.snode nm cs, r5)
        | 2 :: r3 => some (.enode nm, r3)
        | _ => none
termination_by fuel w l => (fuel, 0)

/-- Modelled from the spec: decode a declared number of children in
sequence. -/
def decKids : Nat → Nat → Nat → List Nat → Option (List OTree × List Nat)
  | _, _, 0, l => some ([], l)
  | fuel, w, k + 1, l =>
    match decNode fuel w l with
    | none => none
    | some (t, r) =>
      match decKids fuel w k r with
      | none => none
      | some (ts, r2) => some (t :: ts, r2)
termination_by fuel w k l => (fuel, k + 1)
end

/-- Modelled from the spec: full binary decode — check the magic byte, then
decode the root node (fuel: the recursion depth is bounded by the buffer
size, each level consuming at least one byte). -/
def binDecode (w : Nat) (l : List Nat) : Option OTree :=
  match l with
  | [] => none
  | m :: r => if m = MAGIC then (decNode r.length w r).map Prod.fst else none

mutual
/-- All length fields of the tree fit the native width: names, payloads and
child counts are below `256 ^ w`. -/
def bounded (w : Nat) : OTree → Bool
  | .vnode n v => decide (n.length < 256 ^ w) && decide (v.length < 256 ^ w)
  | .enode n => decide (n.length < 256 ^ w)
  | .snode n cs => decide (n.length < 256 ^ w) && decide (cs.length < 256 ^ w) && boundedL w cs

/-- `bounded` on every element of a child list. -/
def boundedL (w : Nat) : List OTree → Bool
  | [] => true
  | t :: ts => bounded w t && boundedL w ts
end

end OdeBin

/-! ## Basic length facts about the text encoder -/

theorem serial_str_length (s : List Nat) :
    (Ode.serial_str s).length = s.length + 2 * Ode.nspec s + 2 := by
  simp [Ode.serial_str]
  omega

mutual

theorem mkserial_length : ∀ t : Ode.OTree, (Ode.mkserial t).length = Ode.size_as_serial t
  | .vnode n v => by
    simp [Ode.mkserial, Ode.size_as_serial, serial_str_length]
    omega
  | .snode n cs => by
    have h := mkserialL_length cs
    simp [Ode.mkserial, Ode.size_as_serial, serial_str_length, h]
  | .enode n => by
    simp [Ode.mkserial, Ode.size_as_serial, serial_str_length]

theorem mkserialL_length : ∀ cs : List Ode.OTree, (Ode.mkserialL cs).length = Ode.sizeL cs
  | [] => by simp [Ode.mkserialL, Ode.sizeL]
  | t :: ts => by
    have h1 := mkserial_length t
    have h2 := mkserialL_length ts
    simp [Ode.mkserialL, Ode.sizeL, h1, h2]

end

/-- C10: the text encoder writes exactly the pre-computed size — the byte
list produced by `mkserial` has exactly `size_as_serial` elements, so
`ode_serial` writes exactly the `size_as_serial`-byte buffer it allocates,
and the size it reports in `*serial_size` equals the number of bytes
written. -/
theorem serial_writes_exact_size (t : Ode.OTree) :
    (Ode.mkserial t).length = Ode.size_as_serial t ∧
    (Ode.ode_serial t).2 = (Ode.ode_serial t).1.length := by
  refine ⟨mkserial_length t, ?_⟩
  simp [Ode.ode_serial, mkserial_length t]

/-- C5: evaluation of the shrink reallocation size the code computes.  The C
expression `sizeof(*sur->sub) * sur->nsub - 1` (ode.c:545) asks for
`sz * nsub - 1` bytes, which differs from the `sz * (nsub - 1)` bytes of a
one-element-smaller array whenever the record size and the old child count
are at least 2. -/
theorem del_shrink_request_bug (sz nsub : Nat) (h1 : 2 ≤ sz) (h2 : 2 ≤ nsub) :
    Ode.shrink_request sz nsub ≠ sz * (nsub - 1) := by
  obtain ⟨m, rfl⟩ : ∃ m, nsub = m + 2 := ⟨nsub - 2, by omega⟩
  unfold Ode.shrink_request
  have h3 : m + 2 - 1 = m + 1 := rfl
  rw [h3]
  have e1 : sz * (m + 2) = sz * m + sz + sz := by ring
  have e2 : sz * (m + 1) = sz * m + sz := by ring
  omega

/-- Witness for `del_shrink_request_bug`: with 56-byte records and two
children, the code requests 111 bytes where a one-element array needs 56. -/
theorem del_shrink_request_bug_witness :
    2 ≤ 56 ∧ 2 ≤ 2 ∧ Ode.shrink_request 56 2 ≠ 56 * (2 - 1) :=
  ⟨by decide, by decide, del_shrink_request_bug 56 2 (by decide) (by decide)⟩

/-- C6 counterexample: decoding `#"a"##` — declared fence width 1, and the
only quote after the content is followed by TWO hash bytes.  The claim says
a quote followed by any number of hashes other than exactly 1 is literal
content, so this buffer should fail for lack of a matching close; the code
instead ends the string at that quote, returning content `a` of length 1 and
leaving the second hash unconsumed. -/
theorem fence_exact_match_cex :
    Ode.info_serial [35, 34, 97, 34, 35, 35] = some (1, 1) ∧
    Ode.deserial_str [35, 34, 97, 34, 35, 35] = some ([97], [35]) := by
  constructor
  · simp [Ode.info_serial, Ode.specRun, Ode.scanStr, Ode.leadHashes]
  · simp [Ode.deserial_str, Ode.info_serial, Ode.specRun, Ode.scanStr, Ode.leadHashes,
          List.take, List.drop]

/-! ## The closing-fence scan: characterisation -/

theorem leadHashes_le_length (l : List Nat) : Ode.leadHashes l ≤ l.length := by
  induction l with
  | nil => simp [Ode.leadHashes]
  | cons c r ih =>
    by_cases hc : c = 35 <;> simp [Ode.leadHashes, hc] <;> omega

theorem get_of_lt_leadHashes :
    ∀ (l : List Nat) (i : Nat), i < Ode.leadHashes l → l[i]? = some 35
  | [], i => by simp [Ode.leadHashes]
  | c :: r, 0 => by
    by_cases hc : c = 35 <;> simp [Ode.leadHashes, hc]
  | c :: r, i + 1 => by
    by_cases hc : c = 35 <;> simp [Ode.leadHashes, hc]
    exact get_of_lt_leadHashes r i

theorem leadHashes_append_quote : ∀ (a b : List Nat),
    Ode.leadHashes (a ++ 34 :: b) = Ode.leadHashes a
  | [], b => by simp [Ode.leadHashes]
  | c :: a, b => by
    by_cases hc : c = 35 <;> simp [Ode.leadHashes, hc, leadHashes_append_quote a b]

theorem leadHashes_replicate_append (k : Nat) (b : List Nat) :
    Ode.leadHashes (List.replicate k 35 ++ b) = k + Ode.leadHashes b := by
  induction k with
  | zero => simp
  | succ k ih => simp [List.replicate_succ, Ode.leadHashes, ih]; omega

theorem specRun_replicate : ∀ (k : Nat) (r : List Nat),
    Ode.specRun (List.replicate k 35 ++ 34 :: r) = some (k, r)
  | 0, r => by simp [Ode.specRun]
  | k + 1, r => by simp [Ode.specRun, List.replicate_succ, specRun_replicate k r]

theorem isClose_cons (specs c : Nat) (l : List Nat) (j : Nat) :
    Ode.isClose specs (c :: l) (j + 1) ↔ Ode.isClose specs l j := by
  simp [Ode.isClose]

theorem isClose_zero (specs c : Nat) (l : List Nat) :
    Ode.isClose specs (c :: l) 0 ↔ c = 34 ∧ specs ≤ Ode.leadHashes l := by
  simp [Ode.isClose]

theorem isClose_drop (specs d m : Nat) (l : List Nat) :
    Ode.isClose specs (l.drop d) m ↔ Ode.isClose specs l (d + m) := by
  unfold Ode.isClose
  rw [List.getElem?_drop, List.drop_drop]
  have h : d + (m + 1) = d + m + 1 := by omega
  rw [h]

theorem scanStr_some : ∀ (N : Nat) (l : List Nat), l.length ≤ N → ∀ specs n r,
    Ode.scanStr specs l = some (n, r) →
    Ode.isClose specs l n ∧ (∀ j < n, ¬ Ode.isClose specs l j) ∧
      r = l.drop (n + 1 + specs) := by
  intro N
  induction N with
  | zero =>
    intro l hl specs n r h
    have hln : l = [] := List.length_eq_zero.mp (by omega)
    subst hln
    simp [Ode.scanStr] at h
  | succ N ih =>
    intro l hl specs n r h
    cases l with
    | nil => simp [Ode.scanStr] at h
    | cons c rest =>
      simp only [Ode.scanStr] at h
      simp only [List.length_cons] at hl
      by_cases hc : c = 34
      · subst hc
        rw [if_pos rfl] at h
        by_cases h1 : specs ≤ Ode.leadHashes rest
        · rw [if_pos h1] at h
          rw [Option.some.injEq, Prod.mk.injEq] at h
          obtain ⟨hn, hr⟩ := h
          subst hn; subst hr
          refine ⟨(isClose_zero specs 34 rest).mpr ⟨rfl, h1⟩, ?_, ?_⟩
          · intro j hj; omega
          · have he : 0 + 1 + specs = specs + 1 := by omega
            rw [he, List.drop_succ_cons]
        · rw [if_neg h1] at h
          by_cases h2 : rest.length ≤ Ode.leadHashes rest
          · rw [if_pos h2] at h; exact absurd h (by simp)
          · rw [if_neg h2] at h
            cases hs : Ode.scanStr specs (rest.drop (Ode.leadHashes rest)) with
            | none => rw [hs] at h; exact absurd h (by simp)
            | some p =>
              obtain ⟨n', r'⟩ := p
              rw [hs] at h
              rw [Option.some.injEq, Prod.mk.injEq] at h
              obtain ⟨hn, hr⟩ := h
              have hlen : (rest.drop (Ode.leadHashes rest)).length ≤ N := by
                simp only [List.length_drop]; omega
              obtain ⟨hcl, hmin, hrr⟩ := ih _ hlen specs n' r' hs
              have hcl2 : Ode.isClose specs rest (Ode.leadHashes rest + n') :=
                (isClose_drop specs (Ode.leadHashes rest) n' rest).mp hcl
              refine ⟨?_, ?_, ?_⟩
              · rw [← hn]
                have he : n' + Ode.leadHashes rest + 1 = Ode.leadHashes rest + n' + 1 := by
                  omega
                rw [he]
                exact (isClose_cons specs 34 rest _).mpr hcl2
              · intro j hj
                rw [← hn] at hj
                cases j with
                | zero =>
                  intro hcon
                  exact h1 ((isClose_zero specs 34 rest).mp hcon).2
                | succ j' =>
                  intro hcon
                  have hcr : Ode.isClose specs rest j' :=
                    (isClose_cons specs 34 rest j').mp hcon
                  by_cases hj' : j' < Ode.leadHashes rest
                  · have := get_of_lt_leadHashes rest j' hj'
                    rw [hcr.1] at this
                    exact absurd (Option.some.inj this) (by omega)
                  · have hm : j' = Ode.leadHashes rest + (j' - Ode.leadHashes rest) := by
                      omega
                    rw [hm] at hcr
                    have := (isClose_drop specs (Ode.leadHashes rest)
                      (j' - Ode.leadHashes rest) rest).mpr hcr
                    exact hmin _ (by omega) this
              · rw [← hr, hrr, ← hn, List.drop_drop]
                have he : n' + Ode.leadHashes rest + 1 + 1 + specs =
                    Ode.leadHashes rest + (n' + 1 + specs) + 1 := by omega
                rw [he, List.drop_succ_cons]
      · rw [if_neg hc] at h
        cases hs : Ode.scanStr specs rest with
        | none => rw [hs] at h; exact absurd h (by simp)
        | some p =>
          obtain ⟨n', r'⟩ := p
          rw [hs] at h
          rw [Option.some.injEq, Prod.mk.injEq] at h
          obtain ⟨hn, hr⟩ := h
          obtain ⟨hcl, hmin, hrr⟩ := ih rest (by omega) specs n' r' hs
          refine ⟨?_, ?_, ?_⟩
          · rw [← hn]
            exact (isClose_cons specs c rest n').mpr hcl
          · intro j hj
            rw [← hn] at hj
            cases j with
            | zero =>
              intro hcon
              have : c = 34 := by simpa using hcon.1
              exact hc this
            | succ j' =>
              intro hcon
              exact hmin j' (by omega) ((isClose_cons specs c rest j').mp hcon)
          · rw [← hr, hrr, ← hn]
            have he : n' + 1 + 1 + specs = n' + 1 + specs + 1 := by omega
            rw [he, List.drop_succ_cons]

theorem scanStr_close : ∀ (N : Nat) (l : List Nat), l.length ≤ N → ∀ specs n,
    Ode.isClose specs l n → (∀ j < n, ¬ Ode.isClose specs l j) →
    Ode.scanStr specs l = some (n, l.drop (n + 1 + specs)) := by
  intro N
  induction N with
  | zero =>
    intro l hl specs n hcl hmin
    have hln : l = [] := List.length_eq_zero.mp (by omega)
    subst hln
    exact absurd hcl.1 (by simp)
  | succ N ih =>
    intro l hl specs n hcl hmin
    cases l with
    | nil => exact absurd hcl.1 (by simp)
    | cons c rest =>
      simp only [List.length_cons] at hl
      by_cases hc : c = 34
      · subst hc
        by_cases h1 : specs ≤ Ode.leadHashes rest
        · have hn0 : n = 0 := by
            by_contra hne
            exact hmin 0 (by omega) ((isClose_zero specs 34 rest).mpr ⟨rfl, h1⟩)
          subst hn0
          simp only [Ode.scanStr]
          rw [if_pos trivial, if_pos h1]
          have he : 0 + 1 + specs = specs + 1 := by omega
          rw [he, List.drop_succ_cons]
        · have hn0 : n ≠ 0 := by
            intro h0; subst h0
            exact h1 ((isClose_zero specs 34 rest).mp hcl).2
          obtain ⟨n2, rfl⟩ : ∃ m, n = m + 1 := ⟨n - 1, by omega⟩
          have hcr : Ode.isClose specs rest n2 := (isClose_cons specs 34 rest n2).mp hcl
          have hge : Ode.leadHashes rest ≤ n2 := by
            by_contra hlt
            push_neg at hlt
            have := get_of_lt_leadHashes rest n2 hlt
            rw [hcr.1] at this
            exact absurd (Option.some.inj this) (by omega)
          have hlen2 : n2 < rest.length := by
            by_contra hcon
            push_neg at hcon
            have h34 := hcr.1
            rw [List.getElem?_eq_none hcon] at h34
            exact Option.noConfusion h34
          have h2 : ¬ rest.length ≤ Ode.leadHashes rest := by omega
          have hm : Ode.isClose specs (rest.drop (Ode.leadHashes rest))
              (n2 - Ode.leadHashes rest) := by
            apply (isClose_drop specs (Ode.leadHashes rest) _ rest).mpr
            have he : Ode.leadHashes rest + (n2 - Ode.leadHashes rest) = n2 := by omega
            rw [he]; exact hcr
          have hminD : ∀ j < n2 - Ode.leadHashes rest,
              ¬ Ode.isClose specs (rest.drop (Ode.leadHashes rest)) j := by
            intro j hj hcon
            have := (isClose_drop specs (Ode.leadHashes rest) j rest).mp hcon
            exact hmin (Ode.leadHashes rest + j + 1) (by omega)
              ((isClose_cons specs 34 rest _).mpr this)
          have hres := ih (rest.drop (Ode.leadHashes rest))
            (by simp only [List.length_drop]; omega) specs _ hm hminD
          simp only [Ode.scanStr]
          rw [if_pos trivial, if_neg h1, if_neg h2]
          simp only [hres]
          rw [List.drop_drop]
          have e1 : n2 - Ode.leadHashes rest + Ode.leadHashes rest + 1 = n2 + 1 := by omega
          have e2 : Ode.leadHashes rest + (n2 - Ode.leadHashes rest + 1 + specs) =
              n2 + 1 + specs := by omega
          rw [e1, e2]
          have e3 : n2 + 1 + 1 + specs = n2 + 1 + specs + 1 := by omega
          rw [e3, List.drop_succ_cons]
      · have hn0 : n ≠ 0 := by
          intro h0; subst h0
          exact hc (by simpa using hcl.1)
        obtain ⟨n2, rfl⟩ : ∃ m, n = m + 1 := ⟨n - 1, by omega⟩
        have hcr := (isClose_cons specs c rest n2).mp hcl
        have hminr : ∀ j < n2, ¬ Ode.isClose specs rest j := by
          intro j hj hcon
          exact hmin (j + 1) (by omega) ((isClose_cons specs c rest j).mpr hcon)
        have hres := ih rest (by omega) specs n2 hcr hminr
        simp only [Ode.scanStr]
        rw [if_neg hc]
        simp only [hres]
        have e3 : n2 + 1 + 1 + specs = n2 + 1 + specs + 1 := by omega
        rw [e3, List.drop_succ_cons]

theorem scanStr_none_iff (specs : Nat) (l : List Nat) :
    Ode.scanStr specs l = none ↔ ∀ j, ¬ Ode.isClose specs l j := by
  constructor
  · intro h j hj
    have hex : ∃ i, Ode.isClose specs l i := ⟨j, hj⟩
    have hall := scanStr_close l.length l le_rfl specs (Nat.find hex)
      (Nat.find_spec hex) (fun i hi => Nat.find_min hex hi)
    rw [hall] at h
    exact Option.noConfusion h
  · intro hall
    cases hs : Ode.scanStr specs l with
    | none => rfl
    | some p =>
      obtain ⟨n, r⟩ := p
      exact absurd (scanStr_some l.length l le_rfl specs n r hs).1 (hall n)

/-- C6 (amended): fenced-string decoding terminates on an at-least fence
match.  When decoding a string whose opening hash run declares fence width
`specs`, the string ends at the first quote that is followed by at least
`specs` hash characters (a quote followed by fewer hashes is literal content
and the scan continues), and decoding fails as invalid input exactly when no
quote followed by at least `specs` hashes exists before the buffer end. -/
theorem fence_close_at_least (specs : Nat) (body : List Nat) :
    (∀ rlen sp, Ode.info_serial (List.replicate specs 35 ++ 34 :: body) = some (rlen, sp) →
      sp = specs ∧ Ode.isClose specs body rlen ∧ ∀ j < rlen, ¬ Ode.isClose specs body j) ∧
    (Ode.info_serial (List.replicate specs 35 ++ 34 :: body) = none ↔
      ∀ j, ¬ Ode.isClose specs body j) := by
  have hspec := specRun_replicate specs body
  cases body with
  | nil =>
    have hnone : Ode.info_serial (List.replicate specs 35 ++ 34 :: []) = none := by
      unfold Ode.info_serial
      by_cases hl : (List.replicate specs 35 ++ 34 :: ([] : List Nat)).length < 2
      · rw [if_pos hl]
      · rw [if_neg hl]
        simp [hspec]
    constructor
    · intro rlen sp h
      rw [hnone] at h
      exact Option.noConfusion h
    · rw [hnone]
      simp [Ode.isClose]
  | cons b bs =>
    have hl : ¬ (List.replicate specs 35 ++ 34 :: b :: bs).length < 2 := by
      simp
      omega
    have hred : Ode.info_serial (List.replicate specs 35 ++ 34 :: b :: bs) =
        match Ode.scanStr specs (b :: bs) with
        | some (n, _) => some (n, specs)
        | none => none := by
      unfold Ode.info_serial
      rw [if_neg hl, hspec]
      simp
    constructor
    · intro rlen sp h
      rw [hred] at h
      cases hs : Ode.scanStr specs (b :: bs) with
      | none => rw [hs] at h; exact Option.noConfusion h
      | some p =>
        obtain ⟨n, r⟩ := p
        rw [hs] at h
        simp only [Option.some.injEq, Prod.mk.injEq] at h
        obtain ⟨hn, hsp⟩ := h
        obtain ⟨hc1, hc2, _⟩ := scanStr_some (b :: bs).length _ le_rfl specs n r hs
        subst hn
        subst hsp
        exact ⟨rfl, hc1, hc2⟩
    · rw [hred]
      cases hs : Ode.scanStr specs (b :: bs) with
      | none =>
        simp only [hs]
        constructor
        · intro _
          exact (scanStr_none_iff specs (b :: bs)).mp hs
        · intro _
          trivial
      | some p =>
        obtain ⟨n, r⟩ := p
        simp only [hs]
        constructor
        · intro hcon
          exact Option.noConfusion hcon
        · intro hall
          exact absurd (scanStr_some _ _ le_rfl specs n r hs).1 (hall n)

/-- C7: evaluation of the decoder's allocation balance at two invalid
inputs.  First conjunct, the buffer `"a":"v"x` (value string read, then a
byte that is not the `;` terminator): the run fails (`none`) having made 3
allocations (root object, name, value) but only 2 frees (name, root) —
the value buffer read before the missing terminator is never freed.
Second conjunct, the buffer `"p"||"a";#` (first child fully deserialised,
second child's string invalid): 4 allocations (root, parent name, child
array, first child's name) against 3 frees (child array, parent name, root)
— the fully-deserialised first child's name buffer is never destroyed.
Both contradict the claim that every partially constructed node is fully
destroyed before the failure propagates. -/
theorem deserial_failure_leaks :
    OdeCnt.ode_deserialA [34, 97, 34, 58, 34, 118, 34, 120] = (none, 3, 2) ∧
    OdeCnt.ode_deserialA [34, 112, 34, 124, 124, 34, 97, 34, 59, 35] = (none, 4, 3) := by
  constructor <;>
    simp [OdeCnt.ode_deserialA, OdeCnt.mkdeserialA, OdeCnt.mkdeserialCA,
      OdeCnt.deserial_strA, Ode.deserial_str, Ode.info_serial, Ode.specRun, Ode.scanStr,
      Ode.leadHashes, Ode.leadPipes, List.take, List.drop]

/-- C2: evaluation of `ode_add` at an allocation-failure schedule the claim
covers: the parent (root, block 0) already has one child `"a"` (block 1);
adding `"b"` lets the growing realloc succeed and relocate the child array
(to fresh block 2, so block 1 is released), after which the name allocation
inside `set_str` fails.  The call reports failure (first conjunct), the tree
was readable before the call (second conjunct), but afterwards the parent's
`sub` still holds the released block 1, so the tree's child array dangles
and the observable tree is gone (third conjunct) — not "exactly as it was
before the call". -/
theorem add_alloc_failure_not_atomic :
    (OdeHeap.ode_add [(0, [⟨[114], none, 1, some 1, none⟩]),
        (1, [⟨[97], none, 0, none, some (0, 0)⟩])] (0, 0) [98] (some 2) false).1 = none ∧
    OdeHeap.readTree 3 [(0, [⟨[114], none, 1, some 1, none⟩]),
        (1, [⟨[97], none, 0, none, some (0, 0)⟩])] (0, 0) =
      some (.snode [114] [.enode [97]]) ∧
    OdeHeap.readTree 3 (OdeHeap.ode_add [(0, [⟨[114], none, 1, some 1, none⟩]),
        (1, [⟨[97], none, 0, none, some (0, 0)⟩])] (0, 0) [98] (some 2) false).2 (0, 0) =
      none := by
  refine ⟨?_, ?_, ?_⟩ <;>
    simp [OdeHeap.ode_add, OdeHeap.readTree, OdeHeap.readKids, OdeHeap.readN,
      OdeHeap.hget, OdeHeap.hset, OdeHeap.hfree, OdeHeap.ode_get1h, OdeHeap.initNode,
      List.find?, List.filter]

/-- C3: evaluation of `ode_del` on the tree root `"r"` with children
`x` (slot (1,0), deleted) and `y` (slot (1,1)), where `y` has one child `z`
(block 2) whose `sur` is (1,1).  With the shrinking realloc returning the
SAME base (block 1): the deletion succeeds; the former last child `y` now
occupies the deleted slot (1,0) (keeping its sub block 2); but `z`'s parent
back-reference still reads (1,1) — a slot that no longer exists (fourth
conjunct) — because `resur` only runs when the base changed.  The final
conjunct shows the contrast: with the realloc moving the array to block 3,
`z`'s back-reference is repaired to the moved child's new slot (3,0). -/
theorem del_same_base_stale_backref :
    (OdeHeap.ode_del 6 [(0, [⟨[114], none, 2, some 1, none⟩]),
        (1, [⟨[120], none, 0, none, some (0, 0)⟩, ⟨[121], none, 1, some 2, some (0, 0)⟩]),
        (2, [⟨[122], none, 0, none, some (1, 1)⟩])] (1, 0) (some 1)).1 = true ∧
    OdeHeap.readN (OdeHeap.ode_del 6 [(0, [⟨[114], none, 2, some 1, none⟩]),
        (1, [⟨[120], none, 0, none, some (0, 0)⟩, ⟨[121], none, 1, some 2, some (0, 0)⟩]),
        (2, [⟨[122], none, 0, none, some (1, 1)⟩])] (1, 0) (some 1)).2 (1, 0) =
      some ⟨[121], none, 1, some 2, some (0, 0)⟩ ∧
    OdeHeap.readN (OdeHeap.ode_del 6 [(0, [⟨[114], none, 2, some 1, none⟩]),
        (1, [⟨[120], none, 0, none, some (0, 0)⟩, ⟨[121], none, 1, some 2, some (0, 0)⟩]),
        (2, [⟨[122], none, 0, none, some (1, 1)⟩])] (1, 0) (some 1)).2 (2, 0) =
      some ⟨[122], none, 0, none, some (1, 1)⟩ ∧
    OdeHeap.readN (OdeHeap.ode_del 6 [(0, [⟨[114], none, 2, some 1, none⟩]),
        (1, [⟨[120], none, 0, none, some (0, 0)⟩, ⟨[121], none, 1, some 2, some (0, 0)⟩]),
        (2, [⟨[122], none, 0, none, some (1, 1)⟩])] (1, 0) (some 1)).2 (1, 1) = none ∧
    OdeHeap.readN (OdeHeap.ode_del 6 [(0, [⟨[114], none, 2, some 1, none⟩]),
        (1, [⟨[120], none, 0, none, some (0, 0)⟩, ⟨[121], none, 1, some 2, some (0, 0)⟩]),
        (2, [⟨[122], none, 0, none, some (1, 1)⟩])] (1, 0) (some 3)).2 (2, 0) =
      some ⟨[122], none, 0, none, some (3, 0)⟩ := by
  refine ⟨?_, ?_, ?_, ?_, ?_⟩ <;>
    simp [OdeHeap.ode_del, OdeHeap.readN, OdeHeap.hget, OdeHeap.hset, OdeHeap.hfree,
      OdeHeap.destroy, OdeHeap.resur, OdeHeap.setAllSur, OdeHeap.writeN,
      List.find?, List.filter, List.range, List.range.loop, List.take, List.set]

/-! ## The length sentinel -/

theorem cstrlen_cons (x : Nat) (a : List Nat) :
    Ode.cstrlen (x :: a) = if x = 0 then 0 else Ode.cstrlen a + 1 := by
  by_cases hx : x = 0 <;>
    simp [Ode.cstrlen, List.takeWhile, hx, show (x != 0) = !decide (x = 0) from rfl]

theorem eq_str_eq : ∀ (b a : List Nat),
    Ode.eq_str a b = (b.length == Ode.cstrlen a && b == a.take (Ode.cstrlen a))
  | [], a => by
    cases a with
    | nil => simp [Ode.eq_str, Ode.cstrlen]
    | cons x a' =>
      by_cases hx : x = 0 <;>
        simp [Ode.eq_str, cstrlen_cons, hx, List.headD]
  | c :: b', a => by
    cases a with
    | nil => simp [Ode.eq_str, Ode.cstrlen]
    | cons x a' =>
      by_cases hx : x = 0
      · simp [Ode.eq_str, cstrlen_cons, hx, List.headD]
      · by_cases hc : x = c
        · subst hc
          simp [Ode.eq_str, cstrlen_cons, hx, List.headD, List.tail,
            eq_str_eq b' a']
        · simp [Ode.eq_str, cstrlen_cons, hx, List.headD, List.tail, hc,
            Ne.symm hc]

theorem find?_congr {α : Type} {p q : α → Bool} (h : ∀ x, p x = q x) :
    ∀ l : List α, l.find? p = l.find? q
  | [] => rfl
  | x :: l => by
    simp only [List.find?, h x, find?_congr h l]

theorem ode_get1_sentinel (t : Ode.OTree) (s : List Nat) :
    Ode.ode_get1 t s none = Ode.ode_get1 t s (some (Ode.cstrlen s)) := by
  unfold Ode.ode_get1
  exact find?_congr (fun o => eq_str_eq (Ode.oname o) s) _

theorem ode_add_sentinel (t : Ode.OTree) (s : List Nat) :
    Ode.ode_add t s none = Ode.ode_add t s (some (Ode.cstrlen s)) := by
  cases t <;> simp only [Ode.ode_add, ode_get1_sentinel, Ode.resolveLen]

/-- C9: the `(size_t) -1` length sentinel.  For each public operation taking
a (string, length) pair — `ode_create`, `ode_get1`, `ode_mod`, `ode_add` —
passing the sentinel (modelled `none`) behaves exactly as passing
`strlen` of the string (`cstrlen`, the index of its first zero byte); the
hypothesis `0 ∈ s` is the C precondition that the argument really is
NUL-terminated.  The last conjunct: an explicit length uses exactly that
many bytes (so stored names may contain embedded zero bytes). -/
theorem length_sentinel (s : List Nat) (t : Ode.OTree) (sur : Option Ode.OTree)
    (obj : Ode.OTree) (ty : Ode.OType) (k : Nat) (h : 0 ∈ s) :
    Ode.ode_create s none = Ode.ode_create s (some (Ode.cstrlen s)) ∧
    Ode.ode_get1 t s none = Ode.ode_get1 t s (some (Ode.cstrlen s)) ∧
    Ode.ode_mod sur obj ty s none = Ode.ode_mod sur obj ty s (some (Ode.cstrlen s)) ∧
    Ode.ode_add t s none = Ode.ode_add t s (some (Ode.cstrlen s)) ∧
    Ode.oname (Ode.ode_create s (some k)) = s.take k :=
  ⟨rfl, ode_get1_sentinel t s, rfl, ode_add_sentinel t s, rfl⟩

/-- Witness for `length_sentinel` at the NUL-terminated buffer `"a\x5c0"`. -/
theorem length_sentinel_witness :
    (0 ∈ [97, 0]) ∧
    (Ode.ode_create [97, 0] none = Ode.ode_create [97, 0] (some (Ode.cstrlen [97, 0])) ∧
     Ode.ode_get1 (.snode [112] [.enode [97]]) [97, 0] none =
       Ode.ode_get1 (.snode [112] [.enode [97]]) [97, 0] (some (Ode.cstrlen [97, 0])) ∧
     Ode.ode_mod (some (.snode [112] [.enode [97]])) (.enode [98]) .tname [97, 0] none =
       Ode.ode_mod (some (.snode [112] [.enode [97]])) (.enode [98]) .tname [97, 0]
         (some (Ode.cstrlen [97, 0])) ∧
     Ode.ode_add (.snode [112] [.enode [97]]) [97, 0] none =
       Ode.ode_add (.snode [112] [.enode [97]]) [97, 0] (some (Ode.cstrlen [97, 0])) ∧
     Ode.oname (Ode.ode_create [97, 0] (some 1)) = [97, 0].take 1) :=
  ⟨by decide, length_sentinel [97, 0] (.snode [112] [.enode [97]])
    (some (.snode [112] [.enode [97]])) (.enode [98]) .tname 1 (by decide)⟩

/-! ## Rename -/

/-- C4 counterexample: renaming the only child `"a"` of parent `"p"` to its
own current name `"a"` fails (the code returns NULL), although the parent
has no *different* child of that name — the duplicate check `ode_get1` on
the parent finds the node itself.  By the claim the call should replace the
name and return the node. -/
theorem mod_rename_self_cex :
    Ode.ode_mod (some (.snode [112] [.enode [97]])) (.enode [97]) .tname [97] (some 1)
      = none ∧
    Ode.children (Ode.OTree.snode [112] [.enode [97]]) = [.enode [97]] ∧
    Ode.oname (Ode.OTree.enode [97]) = [97] := by
  refine ⟨?_, rfl, rfl⟩
  rfl

/-- The duplicate check succeeds exactly on a child whose stored name has
the given length and bytes. -/
theorem ode_get1_some_iff (t : Ode.OTree) (nm : List Nat) (k : Nat) :
    (Ode.ode_get1 t nm (some k)).isSome = true ↔
      ∃ c ∈ Ode.children t, (Ode.oname c).length = k ∧ Ode.oname c = nm.take k := by
  unfold Ode.ode_get1
  rw [List.find?_isSome]
  constructor
  · rintro ⟨c, hc, hp⟩
    simp only [Bool.and_eq_true, beq_iff_eq] at hp
    exact ⟨c, hc, hp.1, hp.2⟩
  · rintro ⟨c, hc, h1, h2⟩
    refine ⟨c, hc, ?_⟩
    have e1 : ((Ode.oname c).length == k) = true := by simp [h1]
    have e2 : (Ode.oname c == nm.take k) = true := by simp [h2]
    simp [e1, e2]

/-- C4 (amended): `ode_mod(node, ODE_NAME, new_name, len)` fails with no
change if and only if the node has a parent and some child of that parent —
possibly the node itself — carries exactly the bytes `new_name[0..len)` as
its name; in every other case (in particular whenever the node is a root)
it replaces the name by those bytes and returns the node, provided
allocation succeeds (allocations are assumed to succeed in this model). -/
theorem mod_name_amended (sur : Option Ode.OTree) (obj : Ode.OTree) (s : List Nat)
    (len : Option Nat) :
    Ode.ode_mod sur obj .tname s len =
      match sur with
      | none => some (Ode.setName obj (s.take (Ode.resolveLen s len)))
      | some p =>
        if ∃ c ∈ Ode.children p, (Ode.oname c).length = Ode.resolveLen s len ∧
            Ode.oname c = s.take (Ode.resolveLen s len)
        then none
        else some (Ode.setName obj (s.take (Ode.resolveLen s len))) := by
  unfold Ode.ode_mod
  simp only [show (Ode.OType.tname == Ode.OType.tvalue) = false from rfl,
    show (Ode.OType.tname == Ode.OType.tname) = true from rfl,
    Bool.false_and, Bool.true_and]
  cases sur with
  | none =>
    simp
  | some p =>
    simp only [Option.isSome_some, Option.getD_some, Bool.true_and]
    by_cases hg : ∃ c ∈ Ode.children p, (Ode.oname c).length = Ode.resolveLen s len ∧
        Ode.oname c = s.take (Ode.resolveLen s len)
    · rw [if_pos ((ode_get1_some_iff p s _).mpr hg), if_pos hg]
      simp
    · rw [if_neg (fun hc => hg ((ode_get1_some_iff p s _).mp hc)), if_neg hg]
      simp

/-! ## Binary codec round trip -/

theorem toLE_length : ∀ (w n : Nat), (OdeBin.toLE w n).length = w
  | 0, _ => rfl
  | w + 1, n => by simp [OdeBin.toLE, toLE_length w]

theorem fromLE_toLE : ∀ (w n : Nat), n < 256 ^ w → OdeBin.fromLE (OdeBin.toLE w n) = n
  | 0, n, h => by
    have h1 : n = 0 := by simpa using h
    subst h1
    rfl
  | w + 1, n, h => by
    simp only [OdeBin.toLE, OdeBin.fromLE]
    rw [fromLE_toLE w (n / 256) (by
      have h2 : 256 ^ (w + 1) = 256 * 256 ^ w := by ring
      rw [h2] at h
      omega)]
    omega

theorem readLen_toLE (w n : Nat) (rest : List Nat) (h : n < 256 ^ w) :
    OdeBin.readLen w (OdeBin.toLE w n ++ rest) = some (n, rest) := by
  unfold OdeBin.readLen
  rw [if_pos (by simp [toLE_length])]
  rw [List.take_left' (toLE_length w n), List.drop_left' (toLE_length w n)]
  rw [fromLE_toLE w n h]

theorem readBytes_exact (b rest : List Nat) :
    OdeBin.readBytes b.length (b ++ rest) = some (b, rest) := by
  unfold OdeBin.readBytes
  rw [if_pos (by simp)]
  rw [List.take_left, List.drop_left]

mutual

theorem ht_lt_encNode (w : Nat) (hw : 1 ≤ w) :
    ∀ t : Ode.OTree, Ode.ht t < (OdeBin.encNode w t).length
  | .vnode n v => by
    simp [OdeBin.encNode, Ode.ht, toLE_length]
  | .snode n cs => by
    have h := htL_le_encList w hw cs
    simp only [OdeBin.encNode, Ode.ht, List.length_append, List.length_cons, toLE_length]
    omega
  | .enode n => by
    simp [OdeBin.encNode, Ode.ht, toLE_length]

theorem htL_le_encList (w : Nat) (hw : 1 ≤ w) :
    ∀ cs : List Ode.OTree, Ode.htL cs ≤ (OdeBin.encList w cs).length
  | [] => by simp [OdeBin.encList, Ode.htL]
  | t :: ts => by
    have h1 := ht_lt_encNode w hw t
    have h2 := htL_le_encList w hw ts
    simp only [OdeBin.encList, Ode.htL, List.length_append]
    omega

end

theorem binRoundtrip (w : Nat) (hw : 1 ≤ w) : ∀ fuel : Nat,
    (∀ t rest, OdeBin.bounded w t = true → Ode.ht t < fuel →
      OdeBin.decNode fuel w (OdeBin.encNode w t ++ rest) = some (t, rest)) ∧
    (∀ cs rest, OdeBin.boundedL w cs = true → Ode.htL cs < fuel →
      OdeBin.decKids fuel w cs.length (OdeBin.encList w cs ++ rest) = some (cs, rest)) := by
  intro fuel
  induction fuel with
  | zero =>
    exact ⟨fun t rest _ h => absurd h (by omega),
           fun cs rest _ h => absurd h (by omega)⟩
  | succ fuel ih =>
    have hF : ∀ t rest, OdeBin.bounded w t = true → Ode.ht t < fuel + 1 →
        OdeBin.decNode (fuel + 1) w (OdeBin.encNode w t ++ rest) = some (t, rest) := by
      intro t rest hb hht
      match t with
      | .vnode n v =>
        simp only [OdeBin.bounded, Bool.and_eq_true, decide_eq_true_eq] at hb
        have e : OdeBin.encNode w (.vnode n v) ++ rest =
            OdeBin.toLE w n.length ++ (n ++ (0 :: (OdeBin.toLE w v.length ++ (v ++ rest)))) := by
          simp [OdeBin.encNode]
        rw [e]
        simp only [OdeBin.decNode, readLen_toLE w n.length _ hb.1, readBytes_exact n _,
          readLen_toLE w v.length _ hb.2, readBytes_exact v _]
      | .enode n =>
        simp only [OdeBin.bounded, decide_eq_true_eq] at hb
        have e : OdeBin.encNode w (.enode n) ++ rest =
            OdeBin.toLE w n.length ++ (n ++ (2 :: rest)) := by
          simp [OdeBin.encNode]
        rw [e]
        simp only [OdeBin.decNode, readLen_toLE w n.length _ hb, readBytes_exact n _]
      | .snode n cs =>
        simp only [OdeBin.bounded, Bool.and_eq_true, decide_eq_true_eq] at hb
        obtain ⟨⟨hbn, hbc⟩, hbl⟩ := hb
        have e : OdeBin.encNode w (.snode n cs) ++ rest =
            OdeBin.toLE w n.length ++ (n ++ (1 :: (OdeBin.toLE w cs.length ++
              (OdeBin.encList w cs ++ rest)))) := by
          simp [OdeBin.encNode]
        rw [e]
        simp only [Ode.ht] at hht
        have hkids := ih.2 cs rest hbl (by omega)
        simp only [OdeBin.decNode, readLen_toLE w n.length _ hbn, readBytes_exact n _,
          readLen_toLE w cs.length _ hbc, hkids]
    have hC : ∀ cs rest, OdeBin.boundedL w cs = true → Ode.htL cs < fuel + 1 →
        OdeBin.decKids (fuel + 1) w cs.length (OdeBin.encList w cs ++ rest) =
          some (cs, rest) := by
      intro cs
      induction cs with
      | nil =>
        intro rest _ _
        simp [OdeBin.encList, OdeBin.decKids]
      | cons c cs' ihl =>
        intro rest hb hht
        simp only [OdeBin.boundedL, Bool.and_eq_true] at hb
        simp only [Ode.htL] at hht
        have e : OdeBin.encList w (c :: cs') ++ rest =
            OdeBin.encNode w c ++ (OdeBin.encList w cs' ++ rest) := by
          simp [OdeBin.encList]
        rw [List.length_cons, e]
        simp only [OdeBin.decKids]
        simp only [hF c (OdeBin.encList w cs' ++ rest) hb.1 (by omega)]
        simp only [ihl rest hb.2 (by omega)]
    exact ⟨hF, hC⟩

/-- C8: binary-codec round trip (spec-modelled: the binary codec has no
code under src/, so `OdeBin` follows the spec's words — one fixed magic
byte, then per node a native-width length-prefixed name and a one-byte tag,
`VALUE(0)` with a length-prefixed payload, `CHILDREN(1)` with a
native-width child count and each child's serialised form, `NONE(2)` with
nothing further).  For every tree whose length fields fit the native width,
binary decode of binary encode returns an equal tree. -/
theorem binary_roundtrip (w : Nat) (t : Ode.OTree) (hw : 1 ≤ w)
    (hb : OdeBin.bounded w t = true) :
    OdeBin.binDecode w (OdeBin.binEncode w t) = some t := by
  simp only [OdeBin.binEncode, OdeBin.binDecode]
  rw [if_pos trivial]
  have hfuel : Ode.ht t < (OdeBin.encNode w t).length := ht_lt_encNode w hw t
  have h := (binRoundtrip w hw (OdeBin.encNode w t).length).1 t [] hb hfuel
  rw [List.append_nil] at h
  rw [h]
  rfl

/-- Witness for `binary_roundtrip`: the three-node tree
`"p" ("a":"42", "q")` round-trips through the one-byte-width binary
codec. -/
theorem binary_roundtrip_witness :
    1 ≤ 1 ∧
    OdeBin.bounded 1 (.snode [112] [.vnode [97] [52, 50], .enode [113]]) = true ∧
    OdeBin.binDecode 1
        (OdeBin.binEncode 1 (.snode [112] [.vnode [97] [52, 50], .enode [113]])) =
      some (.snode [112] [.vnode [97] [52, 50], .enode [113]]) :=
  ⟨by decide, by rfl,
    binary_roundtrip 1 (.snode [112] [.vnode [97] [52, 50], .enode [113]])
      (by decide) (by rfl)⟩

/-- C1: evaluation of the text codec at a tree the claim covers.  The node
`"n" : "\x22\x22#"` (value bytes 34, 34, 35, settable through `ode_mod`
with explicit length 3) is well formed, but `nspec` computes fence width 1
for its value: the outer-loop `++str` of ode.c:147 skips the byte after the
first quote's empty hash run, so the second quote — the one followed by a
hash — is never counted, although width 2 is needed (the closing sequence
quote-hash occurs verbatim inside the payload).  The encoder therefore
under-fences the value as `#"""#"#`; decoding that string stops at the
first quote followed by a hash, returning the truncated content `"` with
the bytes `"#` left over (third conjunct), and `ode_deserial` of the full
`ode_serial` output fails on the leftovers instead of returning an equal
tree (fourth conjunct) — the round trip the claim asserts does not hold on
the code. -/
theorem text_roundtrip_cex :
    Ode.wfb (.vnode [110] [34, 34, 35]) = true ∧
    Ode.nspec [34, 34, 35] = 1 ∧
    Ode.deserial_str (Ode.serial_str [34, 34, 35] ++ [59]) =
      some ([34], [34, 35, 59]) ∧
    Ode.ode_deserial (Ode.ode_serial (.vnode [110] [34, 34, 35])).1
      (Ode.ode_serial (.vnode [110] [34, 34, 35])).2 = none := by
  refine ⟨rfl, ?_, ?_, ?_⟩
  · simp [Ode.nspec, Ode.leadHashes]
  · simp [Ode.deserial_str, Ode.serial_str, Ode.nspec, Ode.leadHashes,
      Ode.info_serial, Ode.specRun, Ode.scanStr, List.take, List.drop,
      List.replicate]
  · simp [Ode.ode_deserial, Ode.ode_serial, Ode.mkserial, Ode.size_as_serial,
      Ode.serial_str, Ode.nspec, Ode.leadHashes, Ode.mkdeserialF,
      Ode.deserial_str, Ode.info_serial, Ode.specRun, Ode.scanStr,
      List.take, List.drop, List.replicate]
